import Mathlib

/-!
Shallow embedding of the ECDSA reference implementation (src/utils.rs and
src/ecdsa.rs) over arbitrary-precision naturals, together with theorems
settling the specification claims.  Rust `BigUint` values are modelled as
`Nat`; every panicking path (a failed `assert!`, an explicit `panic!`, a
`BigUint` subtraction underflow, or a `modpow` call with zero modulus) is
modelled as `Option.none`, so a function returns `some v` exactly when the
Rust code returns the value `v` without panicking.
-/

namespace Ecdsa

/-- The point type of src/utils.rs: `Point::Coor(x, y)` or `Point::Identity`. -/
inductive Point where
  | Coor (x y : Nat)
  | Identity
deriving DecidableEq, Repr

namespace FiniteField

/-- FiniteField::add (src/utils.rs:115-119): `(c + d) mod p` via `modpow(1, p)`;
`modpow` panics when the modulus is zero. -/
def add (c d p : Nat) : Option Nat :=
  if p = 0 then none else some ((c + d) % p)

/-- FiniteField::mult (src/utils.rs:120-124): `(c * d) mod p` via `modpow(1, p)`. -/
def mult (c d p : Nat) : Option Nat :=
  if p = 0 then none else some ((c * d) % p)

/-- FiniteField::inv_add (src/utils.rs:126-131): asserts `c < p`, then returns
`(p - c) mod p`. -/
def inv_add (c p : Nat) : Option Nat :=
  if c < p then some ((p - c) % p) else none

/-- FiniteField::substract (src/utils.rs:133-137): `add c (inv_add d p) p`. -/
def substract (c d p : Nat) : Option Nat := do
  let d_inv ← inv_add d p
  add c d_inv p

/-- FiniteField::inv_mult (src/utils.rs:139-144): `c^(p-2) mod p` (Fermat).
`p - 2` underflows for `p < 2`, and `p = 0` or `p = 1` would also make the
later `modpow` ill-defined; both are panics in Rust. -/
def inv_mult (c p : Nat) : Option Nat :=
  if 2 ≤ p then some (c ^ (p - 2) % p) else none

/-- FiniteField::divide (src/utils.rs:146-149): `mult c (inv_mult d p) p`. -/
def divide (c d p : Nat) : Option Nat := do
  let d_inv ← inv_mult d p
  mult c d_inv p

end FiniteField

/-- The curve `y^2 = x^3 + a*x + b mod p` of src/utils.rs:8-13. -/
structure EllipticCurve where
  a : Nat
  b : Nat
  p : Nat

namespace EllipticCurve

/-- EllipticCurve::is_on_curve (src/utils.rs:98-109): `Identity` is on the curve;
`Coor(x, y)` is on the curve iff `y^2 ≡ x^3 + a*x + b (mod p)`, computed with
`modpow` (panics for `p = 0`) and the `FiniteField` operations. -/
def is_on_curve (E : EllipticCurve) (pt : Point) : Option Bool :=
  match pt with
  | .Coor x y =>
    if E.p = 0 then none
    else some (y ^ 2 % E.p == ((x ^ 3 % E.p + E.a * x % E.p) % E.p + E.b) % E.p)
  | .Identity => some true

/-- An `assert!(self.is_on_curve(p))` call: fails when `is_on_curve` panics or
returns `false`. -/
def assertOnCurve (E : EllipticCurve) (pt : Point) : Option Unit := do
  let b ← E.is_on_curve pt
  if b then pure () else none

/-- EllipticCurve::add (src/utils.rs:16-50): asserts both points on the curve and
distinct; identity is neutral; inverse points sum to `Identity`; otherwise the
chord formulas `s = (y2-y1)/(x2-x1)`, `x3 = s^2-x1-x2`, `y3 = s(x1-x3)-y1`. -/
def add (E : EllipticCurve) (c d : Point) : Option Point := do
  assertOnCurve E c
  assertOnCurve E d
  if c = d then none else
  match c, d with
  | .Identity, d => pure d
  | c, .Identity => pure c
  | .Coor x1 y1, .Coor x2 y2 => do
    let y1plusy2 ← FiniteField.add y1 y2 E.p
    if x1 = x2 ∧ y1plusy2 = 0 then pure .Identity
    else do
      let y2my1 ← FiniteField.substract y2 y1 E.p
      let x2mx1 ← FiniteField.substract x2 x1 E.p
      let s ← FiniteField.divide y2my1 x2mx1 E.p
      let s2 := s ^ 2 % E.p
      let x3a ← FiniteField.substract s2 x1 E.p
      let x3 ← FiniteField.substract x3a x2 E.p
      let t1 ← FiniteField.substract x1 x3 E.p
      let t2 ← FiniteField.mult s t1 E.p
      let y3 ← FiniteField.substract t2 y1 E.p
      pure (.Coor x3 y3)

/-- EllipticCurve::double (src/utils.rs:52-82): asserts the point on the curve;
`Identity` doubles to `Identity`; otherwise the tangent formulas
`s = (3x^2 + a)/(2y)`, `x3 = s^2 - 2x`, `y3 = s(x - x3) - y`. -/
def double (E : EllipticCurve) (pt : Point) : Option Point := do
  assertOnCurve E pt
  match pt with
  | .Identity => pure .Identity
  | .Coor x y => do
    let x2 := x ^ 2 % E.p
    let su1 ← FiniteField.mult 3 x2 E.p
    let s_u ← FiniteField.add su1 E.a E.p
    let s_b ← FiniteField.mult y 2 E.p
    let s ← FiniteField.divide s_u s_b E.p
    let s2 := s ^ 2 % E.p
    let tx ← FiniteField.mult x 2 E.p
    let x3 ← FiniteField.substract s2 tx E.p
    let t1 ← FiniteField.substract x x3 E.p
    let t2 ← FiniteField.mult s t1 E.p
    let y3 ← FiniteField.substract t2 y E.p
    pure (.Coor x3 y3)

/-- Fuelled bit-length computation; `bitsAux fuel n` is the bit length of `n`
whenever `n ≤ fuel`. -/
def bitsAux : Nat → Nat → Nat
  | 0, _ => 0
  | fuel + 1, n => if n = 0 then 0 else bitsAux fuel (n / 2) + 1

/-- The `BigUint::bits` of src/utils.rs:90: number of binary digits (0 for 0). -/
def bits (n : Nat) : Nat := bitsAux n n

/-- The `for i in (0..(d.bits() - 1)).rev()` loop body of
EllipticCurve::scalar_mul (src/utils.rs:90-95): `loopIdx E p0 d n t` runs the
loop for `i = n-1, ..., 0` starting from accumulator `t`. -/
def loopIdx (E : EllipticCurve) (p0 : Point) (d : Nat) : Nat → Point → Option Point
  | 0, t => pure t
  | n + 1, t => do
    let t1 ← E.double t
    let t2 ← if d.testBit n then E.add t1 p0 else pure t1
    loopIdx E p0 d n t2

/-- EllipticCurve::scalar_mul (src/utils.rs:83-97): returns `Identity` at once
for scalar 0, otherwise runs double-and-add over the scalar's bits below the
top bit, starting from the input point. -/
def scalar_mul (E : EllipticCurve) (pt : Point) (d : Nat) : Option Point :=
  if d = 0 then pure .Identity
  else loopIdx E pt d (bits d - 1) pt

end EllipticCurve

/-- The ECDSA context of src/ecdsa.rs:6-10: a curve, a generator, and the
subgroup order `q`. -/
structure ECDSA where
  ec : EllipticCurve
  g : Point
  q : Nat

namespace ECDSA

/-- ECDSA::sign (src/ecdsa.rs:33-46): asserts the three inputs below `q`,
computes `R = k·G`, panics if `R` is `Identity`, and otherwise returns
`(r, s)` where `r = R.x` and `s = (r·priv_key + hash) · inv_add(k, q) mod q`.
Note the code multiplies by `FiniteField::inv_add` (the additive inverse
`q - k`), not by a multiplicative inverse. -/
def sign (C : ECDSA) (hash priv_key k : Nat) : Option (Nat × Nat) := do
  if hash < C.q then pure () else none
  if priv_key < C.q then pure () else none
  if k < C.q then pure () else none
  let r_point ← C.ec.scalar_mul C.g k
  match r_point with
  | .Coor r _ => do
    let s1 ← FiniteField.mult r priv_key C.q
    let s2 ← FiniteField.add s1 hash C.q
    let k_inv ← FiniteField.inv_add k C.q
    let s3 ← FiniteField.mult s2 k_inv C.q
    pure (r, s3)
  | .Identity => none

/-- ECDSA::verify (src/ecdsa.rs:48-63): asserts `hash < q`, computes
`w = s^(q-2) mod q`, `u1 = w·hash mod q`, `u2 = w·r mod q`,
`P = u1·G + u2·pub_key`, panics if `P` is `Identity`, else `P.x == r`. -/
def verify (C : ECDSA) (hash : Nat) (pub_key : Point) (sig : Nat × Nat) :
    Option Bool := do
  if hash < C.q then pure () else none
  let s_inv ← FiniteField.inv_mult sig.2 C.q
  let u1 ← FiniteField.mult s_inv hash C.q
  let u2 ← FiniteField.mult s_inv sig.1 C.q
  let u1a ← C.ec.scalar_mul C.g u1
  let u1b ← C.ec.scalar_mul pub_key u2
  let pp ← C.ec.add u1a u1b
  match pp with
  | .Coor xp _ => pure (xp == sig.1)
  | .Identity => none

/-- Big-endian byte interpretation, as in `BigUint::from_bytes_be` applied to
the hex-decoded digest in src/ecdsa.rs:67-68. -/
def from_bytes_be (bs : List Nat) : Nat :=
  bs.foldl (fun acc b => acc * 256 + b) 0

/-- ECDSA::generate_hash (src/ecdsa.rs:65-72) with the SHA-256 digest (an
external collaborator per the spec) abstracted as its byte sequence: the
digest is interpreted big-endian and reduced by `mod (q-1)` (panics for
`q < 2`: underflow at `q = 0`, zero modulus at `q = 1`), then incremented. -/
def generate_hash (C : ECDSA) (digestBytes : List Nat) : Option Nat :=
  if C.q < 2 then none
  else some (from_bytes_be digestBytes % (C.q - 1) + 1)

end ECDSA

/-- A point whose affine coordinates are reduced into `[0, p)`, the canonical
range the spec's data model prescribes for `Coordinate` points. -/
def Point.reduced (E : EllipticCurve) : Point → Prop
  | .Coor x y => x < E.p ∧ y < E.p
  | .Identity => True

instance (E : EllipticCurve) (pt : Point) : Decidable (pt.reduced E) :=
  match pt with
  | .Coor _ _ => inferInstanceAs (Decidable (_ ∧ _))
  | .Identity => inferInstanceAs (Decidable True)

/-- Modelled from the spec (§8, scalar-multiplication consistency): the point
`pt` added to itself `k` times via repeated group addition, invoking the
internal doubling operation whenever the two addends coincide (the spec's
equal-point exclusion). -/
def EllipticCurve.refMul (E : EllipticCurve) (pt : Point) : Nat → Option Point
  | 0 => pure .Identity
  | n + 1 => do
    let acc ← E.refMul pt n
    if acc = pt then E.double acc else E.add acc pt

/-- The short Weierstrass curve over `ZMod p` corresponding to an embedded
curve configuration. -/
def toW (E : EllipticCurve) : WeierstrassCurve.Affine (ZMod E.p) :=
  { a₁ := 0, a₂ := 0, a₃ := 0, a₄ := (E.a : ZMod E.p), a₆ := (E.b : ZMod E.p) }

/-- Project a Mathlib nonsingular rational point back to the embedded point
type, taking canonical representatives of the residue classes. -/
def fromW {p : Nat} {W : WeierstrassCurve.Affine (ZMod p)} : W.Point → Point
  | .zero => .Identity
  | @WeierstrassCurve.Affine.Point.some _ _ _ x y _ => .Coor x.val y.val

/-- The toy curve `y^2 = x^3 + 2x + 2 mod 17` used by the repository tests. -/
def toyEC : EllipticCurve := { a := 2, b := 2, p := 17 }

/-- The toy ECDSA context of the src/ecdsa.rs test: generator `(5,1)`, order 19. -/
def toyECDSA : ECDSA := { ec := toyEC, g := .Coor 5 1, q := 19 }

/-- A curve with a 2-torsion point: `y^2 = x^3 + 1 mod 5` has `(4, 0)` on it. -/
def torsionEC : EllipticCurve := { a := 0, b := 1, p := 5 }

/-- The curve has no affine point with `y = 0` (no 2-torsion): doubling never
hits the zero slope denominator documented in the spec's `y = 0` caveat. -/
def noTwoTorsion (E : EllipticCurve) : Prop :=
  ∀ x, x < E.p → ¬ E.is_on_curve (.Coor x 0) = some true

instance (E : EllipticCurve) : Decidable (noTwoTorsion E) :=
  inferInstanceAs
    (Decidable (∀ x, x < E.p → ¬ E.is_on_curve (.Coor x 0) = some true))

/-! ## Helper lemmas on the field operations -/

theorem FiniteField.add_eq {p : Nat} (c d : Nat) (hp : p ≠ 0) :
    FiniteField.add c d p = some ((c + d) % p) := if_neg hp

theorem FiniteField.mult_eq {p : Nat} (c d : Nat) (hp : p ≠ 0) :
    FiniteField.mult c d p = some ((c * d) % p) := if_neg hp

theorem FiniteField.inv_add_eq {c p : Nat} (h : c < p) :
    FiniteField.inv_add c p = some ((p - c) % p) := if_pos h

theorem FiniteField.substract_eq {p : Nat} (c : Nat) {d : Nat} (hd : d < p) :
    FiniteField.substract c d p = some ((c + (p - d) % p) % p) := by
  have hp : p ≠ 0 := by omega
  rw [FiniteField.substract, FiniteField.inv_add_eq hd]
  exact FiniteField.add_eq _ _ hp

theorem FiniteField.inv_mult_eq {p : Nat} (c : Nat) (h : 2 ≤ p) :
    FiniteField.inv_mult c p = some (c ^ (p - 2) % p) := if_pos h

theorem FiniteField.divide_eq {p : Nat} (c d : Nat) (h : 2 ≤ p) :
    FiniteField.divide c d p = some (c * (d ^ (p - 2) % p) % p) := by
  have hp : p ≠ 0 := by omega
  rw [FiniteField.divide, FiniteField.inv_mult_eq _ h]
  exact FiniteField.mult_eq _ _ hp

theorem is_on_curve_identity (E : EllipticCurve) :
    E.is_on_curve .Identity = some true := rfl

theorem is_on_curve_coor_p_ne_zero {E : EllipticCurve} {x y : Nat}
    (h : E.is_on_curve (.Coor x y) = some true) : E.p ≠ 0 := by
  intro hp
  rw [EllipticCurve.is_on_curve, if_pos hp] at h
  exact Option.noConfusion h

/-- Unfolding of `EllipticCurve.double` on an affine point: under the stated
bounds the whole `Option` chain succeeds and produces exactly the code's
intermediate values. -/
theorem EllipticCurve.double_coor_eq (E : EllipticCurve) (x y : Nat)
    (h2 : 2 ≤ E.p) (hy : y < E.p)
    (hon : E.is_on_curve (.Coor x y) = some true) :
    E.double (.Coor x y) =
      (let x2 := x ^ 2 % E.p
       let su1 := 3 * x2 % E.p
       let s_u := (su1 + E.a) % E.p
       let s_b := y * 2 % E.p
       let s := s_u * (s_b ^ (E.p - 2) % E.p) % E.p
       let s2 := s ^ 2 % E.p
       let tx := x * 2 % E.p
       let x3 := (s2 + (E.p - tx) % E.p) % E.p
       let t1 := (x + (E.p - x3) % E.p) % E.p
       let t2 := s * t1 % E.p
       let y3 := (t2 + (E.p - y) % E.p) % E.p
       some (.Coor x3 y3)) := by
  have hp0 : E.p ≠ 0 := by omega
  have hpos : 0 < E.p := by omega
  simp only [EllipticCurve.double, EllipticCurve.assertOnCurve, hon,
    Option.bind_eq_bind, Option.some_bind, Option.pure_def, if_true,
    FiniteField.mult_eq _ _ hp0, FiniteField.add_eq _ _ hp0,
    FiniteField.divide_eq _ _ h2,
    FiniteField.substract_eq _ (Nat.mod_lt _ hpos),
    FiniteField.substract_eq _ hy]

/-- Unfolding of `EllipticCurve.add` on two affine points in the generic
(chord) case: under the stated bounds the `Option` chain succeeds and
produces exactly the code's intermediate values. -/
theorem EllipticCurve.add_coor_eq (E : EllipticCurve) (x1 y1 x2 y2 : Nat)
    (h2 : 2 ≤ E.p) (hx1 : x1 < E.p) (hy1 : y1 < E.p) (hx2 : x2 < E.p)
    (hon1 : E.is_on_curve (.Coor x1 y1) = some true)
    (hon2 : E.is_on_curve (.Coor x2 y2) = some true)
    (hne : Point.Coor x1 y1 ≠ Point.Coor x2 y2)
    (hnr : ¬(x1 = x2 ∧ (y1 + y2) % E.p = 0)) :
    E.add (.Coor x1 y1) (.Coor x2 y2) =
      (let y2my1 := (y2 + (E.p - y1) % E.p) % E.p
       let x2mx1 := (x2 + (E.p - x1) % E.p) % E.p
       let s := y2my1 * (x2mx1 ^ (E.p - 2) % E.p) % E.p
       let s2 := s ^ 2 % E.p
       let x3a := (s2 + (E.p - x1) % E.p) % E.p
       let x3 := (x3a + (E.p - x2) % E.p) % E.p
       let t1 := (x1 + (E.p - x3) % E.p) % E.p
       let t2 := s * t1 % E.p
       let y3 := (t2 + (E.p - y1) % E.p) % E.p
       some (.Coor x3 y3)) := by
  have hp0 : E.p ≠ 0 := by omega
  have hpos : 0 < E.p := by omega
  simp only [EllipticCurve.add, EllipticCurve.assertOnCurve, hon1, hon2,
    Option.bind_eq_bind, Option.some_bind, Option.pure_def, if_true, if_neg hne,
    FiniteField.add_eq _ _ hp0, Option.some_bind, if_neg hnr,
    FiniteField.substract_eq _ hy1, FiniteField.substract_eq _ hx1,
    FiniteField.substract_eq _ hx2, FiniteField.divide_eq _ _ h2,
    FiniteField.substract_eq _ (Nat.mod_lt _ hpos),
    FiniteField.mult_eq _ _ hp0]

/-- Unfolding of `EllipticCurve.add` on two affine points that are additive
inverses of each other (rule 2): the result is `Identity`. -/
theorem EllipticCurve.add_coor_identity (E : EllipticCurve) (x1 y1 x2 y2 : Nat)
    (hon1 : E.is_on_curve (.Coor x1 y1) = some true)
    (hon2 : E.is_on_curve (.Coor x2 y2) = some true)
    (hne : Point.Coor x1 y1 ≠ Point.Coor x2 y2)
    (hr : x1 = x2 ∧ (y1 + y2) % E.p = 0) :
    E.add (.Coor x1 y1) (.Coor x2 y2) = some .Identity := by
  have hp0 : E.p ≠ 0 := is_on_curve_coor_p_ne_zero hon1
  simp only [EllipticCurve.add, EllipticCurve.assertOnCurve, hon1, hon2,
    Option.bind_eq_bind, Option.some_bind, Option.pure_def, if_true, if_neg hne,
    FiniteField.add_eq _ _ hp0, Option.some_bind, if_pos hr]

/-! ## Claim theorems -/

/-- C6: for every point (on the curve or not), `scalar_mul` with scalar 0
returns `Identity` at once: no on-curve validation and no group operation is
performed, so the call succeeds unconditionally. -/
theorem scalar_mul_zero (E : EllipticCurve) (pt : Point) :
    E.scalar_mul pt 0 = some .Identity := rfl

/-- C10: for every point (on the curve or not), `scalar_mul` with scalar 1
returns the input point unchanged: the bit loop is empty, so no validation,
doubling or addition happens and the call succeeds unconditionally. -/
theorem scalar_mul_one (E : EllipticCurve) (pt : Point) :
    E.scalar_mul pt 1 = some pt := rfl

/-- C7: the field round-trip — for prime `p` and `0 < c < p`, multiplying `c`
by its multiplicative inverse yields 1, and adding its additive inverse
yields 0. -/
theorem field_round_trip (c p : Nat) (hp : p.Prime) (hc : 0 < c) (hcp : c < p) :
    ((FiniteField.inv_mult c p).bind fun ci => FiniteField.mult c ci p) = some 1 ∧
    ((FiniteField.inv_add c p).bind fun ca => FiniteField.add c ca p) = some 0 := by
  have hp0 : p ≠ 0 := hp.pos.ne'
  constructor
  · rw [FiniteField.inv_mult_eq _ hp.two_le, Option.some_bind,
      FiniteField.mult_eq _ _ hp0]
    haveI : Fact p.Prime := ⟨hp⟩
    have hc0 : (c : ZMod p) ≠ 0 := by
      intro h
      have hv := congrArg ZMod.val h
      rw [ZMod.val_cast_of_lt hcp, ZMod.val_zero] at hv
      omega
    have hcast : ((c * (c ^ (p - 2) % p) : Nat) : ZMod p) = 1 := by
      push_cast [ZMod.natCast_mod]
      rw [← pow_succ']
      have hexp : p - 2 + 1 = p - 1 := by omega
      rw [hexp]
      exact ZMod.pow_card_sub_one_eq_one hc0
    have hval := congrArg ZMod.val hcast
    rw [ZMod.val_natCast, ZMod.val_one p] at hval
    rw [hval]
  · rw [FiniteField.inv_add_eq hcp, Option.some_bind, FiniteField.add_eq _ _ hp0,
      Nat.mod_eq_of_lt (Nat.sub_lt hp.pos hc), Nat.add_sub_cancel' hcp.le,
      Nat.mod_self]

/-- Witness for C7 at `c = 4`, `p = 11`. -/
theorem field_round_trip_witness :
    ((FiniteField.inv_mult 4 11).bind fun ci => FiniteField.mult 4 ci 11) = some 1 ∧
    ((FiniteField.inv_add 4 11).bind fun ca => FiniteField.add 4 ca 11) = some 0 :=
  field_round_trip 4 11 (by norm_num) (by decide) (by decide)

/-- C3: `generate_hash` returns the big-endian integer value of the digest
reduced by `mod (q-1)` and incremented, and the result always lies in the
range `[1, q-1]`. -/
theorem generate_hash_range (C : ECDSA) (bytes : List Nat) (hq : 2 ≤ C.q) :
    C.generate_hash bytes = some (ECDSA.from_bytes_be bytes % (C.q - 1) + 1) ∧
    1 ≤ ECDSA.from_bytes_be bytes % (C.q - 1) + 1 ∧
    ECDSA.from_bytes_be bytes % (C.q - 1) + 1 ≤ C.q - 1 := by
  refine ⟨?_, Nat.le_add_left 1 _, ?_⟩
  · rw [ECDSA.generate_hash, if_neg (by omega)]
  · have h := Nat.mod_lt (ECDSA.from_bytes_be bytes) (y := C.q - 1) (by omega)
    omega

/-- Witness for C3 on the toy context with digest bytes `[1, 44]`. -/
theorem generate_hash_range_witness :
    toyECDSA.generate_hash [1, 44] = some (ECDSA.from_bytes_be [1, 44] % 18 + 1) ∧
    1 ≤ ECDSA.from_bytes_be [1, 44] % 18 + 1 ∧
    ECDSA.from_bytes_be [1, 44] % 18 + 1 ≤ 18 :=
  generate_hash_range toyECDSA [1, 44] (by decide)

/-- C9: doubling an on-curve point with `y = 0` feeds the zero denominator
`2·0 mod p = 0` to the field division (division by zero, via `0^(p-2)`), and
the case is not special-cased: the operation still returns an affine
`Coor` point, although the group-law double of a 2-torsion point is the
identity, so the produced point is not the well-defined group result. -/
theorem double_y_zero (E : EllipticCurve) (x : Nat) (hq : 2 ≤ E.p)
    (hon : E.is_on_curve (.Coor x 0) = some true) :
    FiniteField.mult 0 2 E.p = some 0 ∧
    ∃ x3 y3, E.double (.Coor x 0) = some (.Coor x3 y3) := by
  have hp0 : E.p ≠ 0 := by omega
  have hpos : 0 < E.p := by omega
  constructor
  · rw [FiniteField.mult_eq _ _ hp0]
    simp
  · rw [E.double_coor_eq x 0 hq hpos hon]
    exact ⟨_, _, rfl⟩

/-- Witness for C9: the 2-torsion point `(4, 0)` of `y^2 = x^3 + 1 mod 5`. -/
theorem double_y_zero_witness :
    FiniteField.mult 0 2 torsionEC.p = some 0 ∧
    ∃ x3 y3, torsionEC.double (.Coor 4 0) = some (.Coor x3 y3) :=
  double_y_zero torsionEC 4 (by decide) (by decide)

/-- C4 counterexample: `(6, 20)` and `(5, 1)` are distinct points that
`is_on_curve` accepts on the toy curve (the membership test reduces modulo
`p`, so the unreduced representative `(6, 20)` of `(6, 3)` passes), yet
`add` panics — `inv_add`'s `c < p` assertion fails on `y1 = 20` — instead of
returning the `Coordinate` result the claim promises. -/
theorem add_rules_counterexample :
    toyEC.is_on_curve (.Coor 6 20) = some true ∧
    toyEC.is_on_curve (.Coor 5 1) = some true ∧
    Point.Coor 6 20 ≠ Point.Coor 5 1 ∧
    toyEC.add (.Coor 6 20) (.Coor 5 1) = none := by decide

/-- C4 (amended): for distinct on-curve points whose coordinates are reduced
into `[0, p)` — the canonical range of the spec's data model — `add` follows
the three rules in order: identity is neutral; additive inverses return
`Identity`; otherwise the chord formulas, with every field operation
succeeding. -/
theorem add_follows_rules (E : EllipticCurve) (c d : Point)
    (hc : E.is_on_curve c = some true) (hd : E.is_on_curve d = some true)
    (hne : c ≠ d) (hrc : c.reduced E) (hrd : d.reduced E) :
    E.add c d =
      match c, d with
      | .Identity, q => some q
      | q, .Identity => some q
      | .Coor x1 y1, .Coor x2 y2 =>
        if x1 = x2 ∧ (y1 + y2) % E.p = 0 then some .Identity
        else
          let y2my1 := (y2 + (E.p - y1) % E.p) % E.p
          let x2mx1 := (x2 + (E.p - x1) % E.p) % E.p
          let s := y2my1 * (x2mx1 ^ (E.p - 2) % E.p) % E.p
          let s2 := s ^ 2 % E.p
          let x3a := (s2 + (E.p - x1) % E.p) % E.p
          let x3 := (x3a + (E.p - x2) % E.p) % E.p
          let t1 := (x1 + (E.p - x3) % E.p) % E.p
          let t2 := s * t1 % E.p
          let y3 := (t2 + (E.p - y1) % E.p) % E.p
          some (.Coor x3 y3) := by
  cases c with
  | Identity =>
    cases d with
    | Identity => exact absurd rfl hne
    | Coor x2 y2 =>
      show E.add .Identity (.Coor x2 y2) = some (.Coor x2 y2)
      simp only [EllipticCurve.add, EllipticCurve.assertOnCurve,
        is_on_curve_identity, hd, Option.bind_eq_bind, Option.some_bind,
        Option.pure_def, if_true, if_neg hne]
  | Coor x1 y1 =>
    cases d with
    | Identity =>
      show E.add (.Coor x1 y1) .Identity = some (.Coor x1 y1)
      simp only [EllipticCurve.add, EllipticCurve.assertOnCurve,
        is_on_curve_identity, hc, Option.bind_eq_bind, Option.some_bind,
        Option.pure_def, if_true, if_neg hne]
    | Coor x2 y2 =>
      obtain ⟨hx1, hy1⟩ := hrc
      obtain ⟨hx2, hy2⟩ := hrd
      show E.add (.Coor x1 y1) (.Coor x2 y2) =
        if x1 = x2 ∧ (y1 + y2) % E.p = 0 then some Point.Identity else _
      by_cases hr : x1 = x2 ∧ (y1 + y2) % E.p = 0
      · rw [if_pos hr]
        exact E.add_coor_identity x1 y1 x2 y2 hc hd hne hr
      · rw [if_neg hr]
        have hp0 : E.p ≠ 0 := is_on_curve_coor_p_ne_zero hc
        have hp1 : E.p ≠ 1 := by
          intro h1
          rw [h1] at hx1 hy1 hx2 hy2
          have e1 : x1 = 0 := by omega
          have e2 : y1 = 0 := by omega
          have e3 : x2 = 0 := by omega
          have e4 : y2 = 0 := by omega
          rw [e1, e2, e3, e4] at hne
          exact hne rfl
        exact E.add_coor_eq x1 y1 x2 y2 (by omega) hx1 hy1 hx2 hc hd hne hr

/-- Witness for C4 (amended) at the repository's own test vector
`(6,3) + (5,1) = (10,6)`. -/
theorem add_follows_rules_witness :
    toyEC.add (.Coor 6 3) (.Coor 5 1) = some (.Coor 10 6) :=
  (add_follows_rules toyEC (.Coor 6 3) (.Coor 5 1) (by decide) (by decide)
    (by decide) (by decide) (by decide)).trans (by decide)

/-- C2: `verify` computes `w = s^(q-2) mod q`, `u1 = w·hash mod q`,
`u2 = w·r mod q`, and `P = u1·G + u2·publicKey` via curve addition; when the
pipeline yields an affine point it returns the boolean `P.x == r`, and when
it yields `Identity` it fails fatally (modelled as `none`) instead of
returning a boolean. -/
theorem verify_spec (C : ECDSA) (hash : Nat) (pub : Point) (r s : Nat)
    (hq : 2 ≤ C.q) (hh : hash < C.q) :
    (∀ x y,
      ((C.ec.scalar_mul C.g (s ^ (C.q - 2) % C.q * hash % C.q)).bind fun A =>
        (C.ec.scalar_mul pub (s ^ (C.q - 2) % C.q * r % C.q)).bind fun B =>
          C.ec.add A B) = some (.Coor x y) →
      C.verify hash pub (r, s) = some (x == r)) ∧
    (((C.ec.scalar_mul C.g (s ^ (C.q - 2) % C.q * hash % C.q)).bind fun A =>
        (C.ec.scalar_mul pub (s ^ (C.q - 2) % C.q * r % C.q)).bind fun B =>
          C.ec.add A B) = some .Identity →
      C.verify hash pub (r, s) = none) := by
  have hq0 : C.q ≠ 0 := by omega
  have hv : C.verify hash pub (r, s) =
      ((C.ec.scalar_mul C.g (s ^ (C.q - 2) % C.q * hash % C.q)).bind fun A =>
        (C.ec.scalar_mul pub (s ^ (C.q - 2) % C.q * r % C.q)).bind fun B =>
          (C.ec.add A B).bind fun pp =>
            match pp with
            | .Coor xp _ => some (xp == r)
            | .Identity => none) := by
    simp only [ECDSA.verify, if_pos hh, FiniteField.inv_mult_eq _ hq,
      FiniteField.mult_eq _ _ hq0, Option.bind_eq_bind, Option.some_bind,
      Option.pure_def]
  constructor
  · intro x y hP
    rw [hv]
    simp only [← Option.bind_assoc]
    rw [hP]
    rfl
  · intro hP
    rw [hv]
    simp only [← Option.bind_assoc]
    rw [hP]
    rfl

/-- Witness for C2 on the toy context: the curve pipeline lands on the affine
point `(6, 3)` and `verify` returns the comparison `6 == 6`. -/
theorem verify_spec_witness :
    toyECDSA.verify 10 (.Coor 0 6) (6, 7) = some true :=
  (verify_spec toyECDSA 10 (.Coor 0 6) 6 7 (by decide) (by decide)).1 6 3
    (by decide)

/-- C1 (code bug): on the toy context, signing with nonce `k = 2` multiplies
by the additive inverse `q - k = 17` (via `FiniteField::inv_add`), producing
`s = 10`, while the specified multiplicative-inverse formula yields `s = 7`.
The code's own signature `(6, 10)` fails verification against the matching
public key `7·G = (0, 6)`, while the specified signature `(6, 7)` verifies,
so the code contradicts the sign/verify round-trip intent. -/
theorem sign_uses_additive_inverse_bug :
    toyECDSA.sign 10 7 2 = some (6, 10) ∧
    ((FiniteField.inv_mult 2 19).bind fun ki =>
      FiniteField.mult ((6 * 7 + 10) % 19) ki 19) = some 7 ∧
    toyECDSA.ec.scalar_mul toyECDSA.g 7 = some (.Coor 0 6) ∧
    toyECDSA.verify 10 (.Coor 0 6) (6, 10) = some false ∧
    toyECDSA.verify 10 (.Coor 0 6) (6, 7) = some true := by
  refine ⟨by decide, by decide, by decide, by decide, by decide⟩

/-! ## Bridge to the Mathlib Weierstrass curve group law -/

section Bridge

variable {E : EllipticCurve}

theorem pow_card_sub_two {p : Nat} [Fact (Nat.Prime p)] {a : ZMod p}
    (ha : a ≠ 0) : a ^ (p - 2) = a⁻¹ := by
  have hple := (Fact.out : Nat.Prime p).two_le
  have h1 : a * a ^ (p - 2) = 1 := by
    rw [← pow_succ', show p - 2 + 1 = p - 1 from by omega]
    exact ZMod.pow_card_sub_one_eq_one ha
  rw [mul_comm] at h1
  exact eq_inv_of_mul_eq_one_left h1

theorem cast_eq_of_lt_of_eq {p : Nat} [NeZero p] {n : Nat} {a : ZMod p}
    (hn : n < p) (h : (n : ZMod p) = a) : n = a.val := by
  have hv := congrArg ZMod.val h
  rwa [ZMod.val_cast_of_lt hn] at hv

theorem is_on_curve_coor_iff [NeZero E.p] (x y : Nat) :
    E.is_on_curve (.Coor x y) = some true ↔
      (toW E).Equation (x : ZMod E.p) (y : ZMod E.p) := by
  have hp0 : E.p ≠ 0 := NeZero.ne _
  rw [WeierstrassCurve.Affine.equation_iff]
  simp only [EllipticCurve.is_on_curve, if_neg hp0, Option.some.injEq,
    beq_iff_eq, toW]
  constructor
  · intro h
    have hc := congrArg (fun n : Nat => (n : ZMod E.p)) h
    push_cast [ZMod.natCast_mod] at hc
    linear_combination hc
  · intro h
    have hc : ((y ^ 2 % E.p : Nat) : ZMod E.p)
        = ((((x ^ 3 % E.p + E.a * x % E.p) % E.p + E.b) % E.p : Nat) : ZMod E.p) := by
      push_cast [ZMod.natCast_mod]
      linear_combination h
    have hv := congrArg ZMod.val hc
    rwa [ZMod.val_natCast, ZMod.val_natCast, Nat.mod_mod_of_dvd _ dvd_rfl,
      Nat.mod_mod_of_dvd _ dvd_rfl] at hv

theorem two_ne_zero_zmod [Fact (Nat.Prime E.p)] (hodd : E.p ≠ 2) :
    (2 : ZMod E.p) ≠ 0 := by
  intro h2
  have hcast : ((2 : Nat) : ZMod E.p) = 0 := by push_cast; exact h2
  rw [ZMod.natCast_zmod_eq_zero_iff_dvd] at hcast
  exact hodd <| ((Nat.prime_dvd_prime_iff_eq (Fact.out : Nat.Prime E.p)
    Nat.prime_two).mp hcast)

theorem oncurve_nonsingular [Fact (Nat.Prime E.p)] (hodd : E.p ≠ 2)
    (hnt : noTwoTorsion E) {x y : Nat} (hx : x < E.p) (hy : y < E.p)
    (hon : E.is_on_curve (.Coor x y) = some true) :
    (toW E).Nonsingular (x : ZMod E.p) (y : ZMod E.p) := by
  have heq := (is_on_curve_coor_iff x y).mp hon
  rw [WeierstrassCurve.Affine.nonsingular_iff']
  refine ⟨heq, Or.inr ?_⟩
  have hy0 : y ≠ 0 := fun h0 => hnt x hx (h0 ▸ hon)
  have hyz : (y : ZMod E.p) ≠ 0 := by
    intro hz
    exact hy0 (by simpa [ZMod.val_cast_of_lt hy] using congrArg ZMod.val hz)
  simp only [toW, zero_mul, add_zero, mul_zero]
  exact mul_ne_zero (two_ne_zero_zmod hodd) hyz

theorem fromW_oncurve [Fact (Nat.Prime E.p)] (T : (toW E).Point) :
    E.is_on_curve (fromW T) = some true := by
  rcases T with _ | @⟨x, y, h⟩
  · rfl
  · show E.is_on_curve (.Coor x.val y.val) = some true
    rw [is_on_curve_coor_iff, ZMod.natCast_zmod_val, ZMod.natCast_zmod_val]
    exact h.1

theorem fromW_reduced [Fact (Nat.Prime E.p)] (T : (toW E).Point) :
    (fromW T).reduced E := by
  rcases T with _ | @⟨x, y, h⟩
  · trivial
  · exact ⟨ZMod.val_lt x, ZMod.val_lt y⟩

theorem fromW_inj [Fact (Nat.Prime E.p)] {T1 T2 : (toW E).Point}
    (h : fromW T1 = fromW T2) : T1 = T2 := by
  rcases T1 with _ | @⟨x1, y1, h1⟩ <;> rcases T2 with _ | @⟨x2, y2, h2⟩
  · rfl
  · exact Point.noConfusion h
  · exact Point.noConfusion h
  · injection h with hx hy
    have hx' : x1 = x2 := by
      have hcx := congrArg (fun n : Nat => (n : ZMod E.p)) hx
      simpa only [ZMod.natCast_zmod_val] using hcx
    have hy' : y1 = y2 := by
      have hcy := congrArg (fun n : Nat => (n : ZMod E.p)) hy
      simpa only [ZMod.natCast_zmod_val] using hcy
    subst hx'
    subst hy'
    rfl

theorem exists_fromW [Fact (Nat.Prime E.p)] (hodd : E.p ≠ 2)
    (hnt : noTwoTorsion E) (pt : Point)
    (hon : E.is_on_curve pt = some true) (hred : pt.reduced E) :
    ∃ T : (toW E).Point, fromW T = pt := by
  cases pt with
  | Identity => exact ⟨.zero, rfl⟩
  | Coor x y =>
    obtain ⟨hx, hy⟩ := hred
    refine ⟨.some (oncurve_nonsingular hodd hnt hx hy hon), ?_⟩
    show Point.Coor _ _ = _
    rw [ZMod.val_cast_of_lt hx, ZMod.val_cast_of_lt hy]

theorem cast_mod_mul {p : Nat} (a b : Nat) :
    ((a * b % p : Nat) : ZMod p) = (a : ZMod p) * b := by
  push_cast [ZMod.natCast_mod]
  ring

theorem cast_mod_add {p : Nat} (a b : Nat) :
    (((a + b) % p : Nat) : ZMod p) = (a : ZMod p) + b := by
  push_cast [ZMod.natCast_mod]
  ring

theorem cast_mod_pow {p : Nat} (a k : Nat) :
    ((a ^ k % p : Nat) : ZMod p) = (a : ZMod p) ^ k := by
  push_cast [ZMod.natCast_mod]
  ring

theorem cast_sub_mod {p : Nat} (a b : Nat) (hb : b ≤ p) :
    (((a + (p - b) % p) % p : Nat) : ZMod p) = (a : ZMod p) - b := by
  push_cast [ZMod.natCast_mod, Nat.cast_sub hb, ZMod.natCast_self]
  ring

theorem fromW_some {p : Nat} {W : WeierstrassCurve.Affine (ZMod p)}
    {x y : ZMod p} (h : W.Nonsingular x y) :
    fromW (.some h) = .Coor x.val y.val := rfl

/-- The `y`-coordinate of a nonsingular point is nonzero on a curve without
2-torsion. -/
theorem fromW_y_ne_zero [Fact (Nat.Prime E.p)] (hnt : noTwoTorsion E)
    {x y : ZMod E.p} (heq : (toW E).Equation x y) : y ≠ 0 := by
  intro h0
  apply hnt x.val (ZMod.val_lt x)
  rw [is_on_curve_coor_iff, ZMod.natCast_zmod_val, Nat.cast_zero]
  rw [h0] at heq
  exact heq

theorem y_ne_negY [Fact (Nat.Prime E.p)] (hodd : E.p ≠ 2) {x y : ZMod E.p}
    (hyz : y ≠ 0) : y ≠ (toW E).negY x y := by
  simp only [WeierstrassCurve.Affine.negY, toW, zero_mul, sub_zero, mul_zero]
  intro hcontra
  apply hyz
  have h2y : (2 : ZMod E.p) * y = 0 := by linear_combination hcontra
  rcases mul_eq_zero.mp h2y with h2 | hy'
  · exact absurd h2 (two_ne_zero_zmod hodd)
  · exact hy'

/-- Doubling correspondence: on a curve without 2-torsion over an odd prime
field, `double` maps the representative of `T` to the representative of
`T + T`, never failing. -/
theorem double_fromW [Fact (Nat.Prime E.p)] (hodd : E.p ≠ 2)
    (hnt : noTwoTorsion E) (T : (toW E).Point) :
    E.double (fromW T) = some (fromW (T + T)) := by
  have h2p : 2 ≤ E.p := (Fact.out : Nat.Prime E.p).two_le
  have hppos : 0 < E.p := by omega
  rcases T with _ | @⟨x, y, h⟩
  · rw [show (WeierstrassCurve.Affine.Point.zero :
      (toW E).Point) + .zero = .zero from add_zero _]
    rfl
  · have hyz : y ≠ 0 := fromW_y_ne_zero hnt h.1
    have hynegY : y ≠ (toW E).negY x y := y_ne_negY hodd hyz
    rw [WeierstrassCurve.Affine.Point.add_self_of_Y_ne hynegY, fromW_some,
      fromW_some]
    rw [E.double_coor_eq x.val y.val h2p (ZMod.val_lt y)
      (fromW_oncurve (.some h))]
    have hsbne : (y : ZMod E.p) * 2 ≠ 0 :=
      mul_ne_zero hyz (two_ne_zero_zmod hodd)
    have hscast : (((3 * (x.val ^ 2 % E.p) % E.p + E.a) % E.p *
        ((y.val * 2 % E.p) ^ (E.p - 2) % E.p) % E.p : Nat) : ZMod E.p) =
        (toW E).slope x x y y := by
      push_cast [ZMod.natCast_mod, ZMod.natCast_zmod_val]
      rw [pow_card_sub_two hsbne,
        WeierstrassCurve.Affine.slope_of_Y_ne rfl hynegY]
      have hden : y - (toW E).negY x y = y * 2 := by
        simp only [WeierstrassCurve.Affine.negY, toW, zero_mul, sub_zero,
          mul_zero]
        ring
      rw [hden, div_eq_mul_inv]
      simp only [toW]
      ring
    have hX3 : (((((3 * (x.val ^ 2 % E.p) % E.p + E.a) % E.p *
        ((y.val * 2 % E.p) ^ (E.p - 2) % E.p) % E.p) ^ 2 % E.p +
        (E.p - x.val * 2 % E.p) % E.p) % E.p : Nat) : ZMod E.p) =
        (toW E).addX x x ((toW E).slope x x y y) := by
      rw [cast_sub_mod _ _ (Nat.mod_lt _ hppos).le, cast_mod_pow, hscast,
        cast_mod_mul, ZMod.natCast_zmod_val]
      simp only [WeierstrassCurve.Affine.addX, toW]
      push_cast
      ring
    simp only [Option.some.injEq, Point.Coor.injEq]
    refine ⟨cast_eq_of_lt_of_eq (Nat.mod_lt _ hppos) hX3, ?_⟩
    apply cast_eq_of_lt_of_eq (Nat.mod_lt _ hppos)
    rw [cast_sub_mod _ _ (ZMod.val_lt y).le, cast_mod_mul, hscast,
      cast_sub_mod _ _ (Nat.mod_lt _ hppos).le, hX3, ZMod.natCast_zmod_val]
    simp only [WeierstrassCurve.Affine.addY, WeierstrassCurve.Affine.negAddY,
      WeierstrassCurve.Affine.negY, WeierstrassCurve.Affine.addX, toW,
      ZMod.natCast_zmod_val]
    ring

theorem add_identity_left {E : EllipticCurve} {q : Point}
    (hq : E.is_on_curve q = some true) (hne : Point.Identity ≠ q) :
    E.add .Identity q = some q := by
  simp only [EllipticCurve.add, EllipticCurve.assertOnCurve,
    is_on_curve_identity, hq, Option.bind_eq_bind, Option.some_bind,
    Option.pure_def, if_true, if_neg hne]

theorem add_identity_right {E : EllipticCurve} {x y : Nat}
    (hq : E.is_on_curve (.Coor x y) = some true) :
    E.add (.Coor x y) .Identity = some (.Coor x y) := by
  simp only [EllipticCurve.add, EllipticCurve.assertOnCurve,
    is_on_curve_identity, hq, Option.bind_eq_bind, Option.some_bind,
    Option.pure_def, if_true,
    if_neg (show Point.Coor x y ≠ Point.Identity from fun h =>
      Point.noConfusion h)]

/-- Addition correspondence: for distinct Mathlib points, `add` maps the
representatives to the representative of the Mathlib sum, never failing. -/
theorem add_fromW [Fact (Nat.Prime E.p)] (T1 T2 : (toW E).Point)
    (hne : T1 ≠ T2) : E.add (fromW T1) (fromW T2) = some (fromW (T1 + T2)) := by
  have h2p : 2 ≤ E.p := (Fact.out : Nat.Prime E.p).two_le
  have hppos : 0 < E.p := by omega
  rcases T1 with _ | @⟨x1, y1, h1⟩
  · rcases T2 with _ | @⟨x2, y2, h2⟩
    · exact absurd rfl hne
    · rw [show (WeierstrassCurve.Affine.Point.zero : (toW E).Point) +
        .some h2 = .some h2 from zero_add _, fromW_some]
      exact add_identity_left (fromW_oncurve (.some h2))
        (fun h => Point.noConfusion h)
  · rcases T2 with _ | @⟨x2, y2, h2⟩
    · rw [show (WeierstrassCurve.Affine.Point.some h1 : (toW E).Point) +
        .zero = .some h1 from add_zero _, fromW_some]
      exact add_identity_right (fromW_oncurve (.some h1))
    · by_cases hx : x1 = x2
      · by_cases hy : y1 = (toW E).negY x2 y2
        · rw [WeierstrassCurve.Affine.Point.add_of_Y_eq hx hy, fromW_some,
            fromW_some]
          have hxv : x1.val = x2.val := by rw [hx]
          have hyv : (y1.val + y2.val) % E.p = 0 := by
            have hzero : (y1 : ZMod E.p) + y2 = 0 := by
              rw [hy]
              simp only [WeierstrassCurve.Affine.negY, toW, zero_mul,
                sub_zero, mul_zero]
              ring
            have hc : ((y1.val + y2.val : Nat) : ZMod E.p) = 0 := by
              push_cast [ZMod.natCast_zmod_val]
              exact hzero
            rw [ZMod.natCast_zmod_eq_zero_iff_dvd] at hc
            obtain ⟨k, hk⟩ := hc
            rw [hk, Nat.mul_mod_right]
          have hnept : Point.Coor x1.val y1.val ≠ Point.Coor x2.val y2.val := by
            intro hcon
            exact hne (fromW_inj hcon)
          exact E.add_coor_identity _ _ _ _ (fromW_oncurve (.some h1))
            (fromW_oncurve (.some h2)) hnept ⟨hxv, hyv⟩
        · exfalso
          have hyy := WeierstrassCurve.Affine.Y_eq_of_Y_ne h1.1 h2.1 hx hy
          subst hx
          subst hyy
          exact hne rfl
      · rw [WeierstrassCurve.Affine.Point.add_of_X_ne hx, fromW_some,
          fromW_some, fromW_some]
        have hxv : x1.val ≠ x2.val := by
          intro hcon
          apply hx
          rw [← ZMod.natCast_zmod_val x1, ← ZMod.natCast_zmod_val x2, hcon]
        have hnr : ¬(x1.val = x2.val ∧ (y1.val + y2.val) % E.p = 0) :=
          fun hcon => hxv hcon.1
        have hnept : Point.Coor x1.val y1.val ≠ Point.Coor x2.val y2.val := by
          intro hcon
          injection hcon with hc1 hc2
          exact hxv hc1
        rw [E.add_coor_eq x1.val y1.val x2.val y2.val h2p (ZMod.val_lt x1)
          (ZMod.val_lt y1) (ZMod.val_lt x2) (fromW_oncurve (.some h1))
          (fromW_oncurve (.some h2)) hnept hnr]
        have hxne : (x2 : ZMod E.p) - x1 ≠ 0 := sub_ne_zero.mpr (Ne.symm hx)
        have hscast : (((y2.val + (E.p - y1.val) % E.p) % E.p *
            (((x2.val + (E.p - x1.val) % E.p) % E.p) ^ (E.p - 2) % E.p) % E.p :
            Nat) : ZMod E.p) = (toW E).slope x1 x2 y1 y2 := by
          rw [cast_mod_mul, cast_sub_mod _ _ (ZMod.val_lt y1).le, cast_mod_pow,
            cast_sub_mod _ _ (ZMod.val_lt x1).le, ZMod.natCast_zmod_val,
            ZMod.natCast_zmod_val, ZMod.natCast_zmod_val,
            ZMod.natCast_zmod_val, pow_card_sub_two hxne,
            WeierstrassCurve.Affine.slope_of_X_ne hx,
            ← neg_sub y2 y1, ← neg_sub x2 x1, neg_div_neg_eq, div_eq_mul_inv]
        have hX3cast : ((((((y2.val + (E.p - y1.val) % E.p) % E.p *
            (((x2.val + (E.p - x1.val) % E.p) % E.p) ^ (E.p - 2) % E.p) % E.p) ^
            2 % E.p + (E.p - x1.val) % E.p) % E.p + (E.p - x2.val) % E.p) %
            E.p : Nat) : ZMod E.p) =
            (toW E).addX x1 x2 ((toW E).slope x1 x2 y1 y2) := by
          rw [cast_sub_mod _ _ (ZMod.val_lt x2).le,
            cast_sub_mod _ _ (ZMod.val_lt x1).le, cast_mod_pow, hscast,
            ZMod.natCast_zmod_val, ZMod.natCast_zmod_val]
          simp only [WeierstrassCurve.Affine.addX, toW]
          ring
        simp only [Option.some.injEq, Point.Coor.injEq]
        refine ⟨cast_eq_of_lt_of_eq (Nat.mod_lt _ hppos) hX3cast, ?_⟩
        apply cast_eq_of_lt_of_eq (Nat.mod_lt _ hppos)
        rw [cast_sub_mod _ _ (ZMod.val_lt y1).le, cast_mod_mul, hscast,
          cast_sub_mod _ _ (Nat.mod_lt _ hppos).le, hX3cast,
          ZMod.natCast_zmod_val]
        simp only [WeierstrassCurve.Affine.addY,
          WeierstrassCurve.Affine.negAddY, WeierstrassCurve.Affine.negY,
          WeierstrassCurve.Affine.addX, toW, ZMod.natCast_zmod_val]
        ring

/-- Adding a point to itself always fails: either an on-curve assertion
fails, or the distinctness assertion does. -/
theorem add_self_none (E : EllipticCurve) (c : Point) : E.add c c = none := by
  simp only [EllipticCurve.add, Option.bind_eq_bind]
  cases hA : E.assertOnCurve c with
  | none => rfl
  | some u =>
    simp only [Option.some_bind, eq_self_iff_true, if_true]

/-- A successful `add` of two representatives lands on the representative of
the Mathlib sum. -/
theorem add_fromW_of_some [Fact (Nat.Prime E.p)] {T1 T2 : (toW E).Point}
    {Z : Point} (h : E.add (fromW T1) (fromW T2) = some Z) :
    Z = fromW (T1 + T2) := by
  by_cases hne : T1 = T2
  · subst hne
    rw [add_self_none] at h
    exact Option.noConfusion h
  · rw [add_fromW T1 T2 hne] at h
    exact (Option.some_inj.mp h).symm

theorem bitsAux_zero (fuel : Nat) : EllipticCurve.bitsAux fuel 0 = 0 := by
  cases fuel <;> rfl

theorem bitsAux_spec : ∀ fuel n, n ≤ fuel → 1 ≤ n →
    2 ^ (EllipticCurve.bitsAux fuel n - 1) ≤ n ∧
      n < 2 ^ EllipticCurve.bitsAux fuel n := by
  intro fuel
  induction fuel with
  | zero => intro n h1 h2; omega
  | succ fuel ih =>
    intro n hle h1
    rw [EllipticCurve.bitsAux, if_neg (by omega)]
    by_cases hn1 : n = 1
    · subst hn1
      rw [show (1 : Nat) / 2 = 0 from rfl, bitsAux_zero]
      omega
    · have hhalf1 : 1 ≤ n / 2 := by omega
      have hhalfle : n / 2 ≤ fuel := by omega
      obtain ⟨hlo, hhi⟩ := ih (n / 2) hhalfle hhalf1
      set B := EllipticCurve.bitsAux fuel (n / 2) with hB
      have hB1 : 1 ≤ B := by
        by_contra hcon
        have hB0 : B = 0 := by omega
        rw [hB0] at hhi
        omega
      have hpow : 2 ^ B = 2 * 2 ^ (B - 1) := by
        rw [← pow_succ']
        congr 1
        omega
      constructor
      · have : 2 ^ (B + 1 - 1) = 2 * 2 ^ (B - 1) := by
          rw [Nat.add_sub_cancel, hpow]
        omega
      · have : 2 ^ (B + 1) = 2 * 2 ^ B := by rw [← pow_succ']
        omega

/-- For a positive scalar, `bits` computes the position of the top set bit:
the scalar lies in `[2^(bits-1), 2^bits)`. -/
theorem bits_spec (n : Nat) (h : 1 ≤ n) :
    2 ^ (EllipticCurve.bits n - 1) ≤ n ∧ n < 2 ^ EllipticCurve.bits n :=
  bitsAux_spec n n le_rfl h

/-- Decomposition of a positive scalar into its top bit and remainder. -/
theorem bits_decomp (d : Nat) (h : 1 ≤ d) :
    d = 2 ^ (EllipticCurve.bits d - 1) + d % 2 ^ (EllipticCurve.bits d - 1) := by
  obtain ⟨hlo, hhi⟩ := bits_spec d h
  have hB1 : 1 ≤ EllipticCurve.bits d := by
    by_contra hcon
    have : EllipticCurve.bits d = 0 := by omega
    rw [this] at hhi
    omega
  set B := EllipticCurve.bits d - 1 with hB
  have hpow : 2 ^ EllipticCurve.bits d = 2 * 2 ^ B := by
    rw [← pow_succ']
    congr 1
    omega
  have hdiv : d / 2 ^ B = 1 := by
    apply Nat.div_eq_of_lt_le
    · omega
    · omega
  have hdm := Nat.div_add_mod d (2 ^ B)
  rw [hdiv, mul_one] at hdm
  omega

/-- Peeling the low bits of a scalar one binary digit at a time. -/
theorem mod_two_pow_succ (d n : Nat) :
    d % 2 ^ (n + 1) = (if d.testBit n then 2 ^ n else 0) + d % 2 ^ n := by
  have h1 : d % 2 ^ (n + 1) = d % 2 ^ n + 2 ^ n * (d / 2 ^ n % 2) := by
    rw [pow_succ]
    exact Nat.mod_mul ..
  rw [h1, Nat.testBit_to_div_mod]
  rcases Nat.mod_two_eq_zero_or_one (d / 2 ^ n) with h | h
  · rw [h]
    simp
  · rw [h]
    simp
    omega

/-- Invariant of the double-and-add loop: processing the low `n` bit
positions turns the accumulator `T` into `2^n • T` plus the low bits of the
scalar times the base point. -/
theorem loopIdx_fromW [Fact (Nat.Prime E.p)] (hodd : E.p ≠ 2)
    (hnt : noTwoTorsion E) (P0 : (toW E).Point) (d : Nat) :
    ∀ (n : Nat) (T : (toW E).Point) (R : Point),
      EllipticCurve.loopIdx E (fromW P0) d n (fromW T) = some R →
      R = fromW (2 ^ n • T + (d % 2 ^ n) • P0) := by
  intro n
  induction n with
  | zero =>
    intro T R h
    simp only [EllipticCurve.loopIdx, Option.pure_def, Option.some_inj] at h
    simp only [pow_zero, one_nsmul, Nat.mod_one, zero_nsmul, add_zero]
    exact h.symm
  | succ n ih =>
    intro T R h
    simp only [EllipticCurve.loopIdx, double_fromW hodd hnt T,
      Option.bind_eq_bind, Option.some_bind] at h
    by_cases hbit : d.testBit n
    · rw [if_pos hbit] at h
      cases hadd : E.add (fromW (T + T)) (fromW P0) with
      | none =>
        rw [hadd] at h
        exact absurd h (by simp)
      | some Z =>
        rw [hadd, Option.some_bind] at h
        rw [add_fromW_of_some hadd] at h
        have hrec := ih (T + T + P0) R h
        have hgroup : 2 ^ n • (T + T + P0) + (d % 2 ^ n) • P0
            = 2 ^ (n + 1) • T + (d % 2 ^ (n + 1)) • P0 := by
          rw [mod_two_pow_succ, if_pos hbit, nsmul_add, add_nsmul,
            pow_succ, mul_nsmul', two_nsmul, add_assoc]
        exact hrec.trans (congrArg fromW hgroup)
    · rw [if_neg hbit] at h
      rw [Option.pure_def, Option.some_bind] at h
      have hrec := ih (T + T) R h
      have hgroup : 2 ^ n • (T + T) + (d % 2 ^ n) • P0
          = 2 ^ (n + 1) • T + (d % 2 ^ (n + 1)) • P0 := by
        rw [mod_two_pow_succ, if_neg hbit, zero_add, pow_succ, mul_nsmul',
          two_nsmul]
      exact hrec.trans (congrArg fromW hgroup)

/-- Correctness of the double-and-add scalar multiplication: a successful
run computes the representative of `d • T`. -/
theorem scalar_mul_fromW [Fact (Nat.Prime E.p)] (hodd : E.p ≠ 2)
    (hnt : noTwoTorsion E) (T : (toW E).Point) (d : Nat) (hd : 1 ≤ d)
    (R : Point) (h : E.scalar_mul (fromW T) d = some R) :
    R = fromW (d • T) := by
  rw [EllipticCurve.scalar_mul, if_neg (by omega)] at h
  have hmain := loopIdx_fromW hodd hnt T d (EllipticCurve.bits d - 1) T R h
  have hsum : 2 ^ (EllipticCurve.bits d - 1) • T +
      (d % 2 ^ (EllipticCurve.bits d - 1)) • T = d • T := by
    rw [← add_nsmul, ← bits_decomp d hd]
  exact hmain.trans (congrArg fromW hsum)

/-- The spec's repeated-addition reference computes the representative of
`n • T`, for every `n`, without failing. -/
theorem refMul_fromW [Fact (Nat.Prime E.p)] (hodd : E.p ≠ 2)
    (hnt : noTwoTorsion E) (T : (toW E).Point) :
    ∀ n, E.refMul (fromW T) n = some (fromW (n • T)) := by
  intro n
  induction n with
  | zero =>
    rw [show (0 : Nat) • T = 0 from zero_nsmul T]
    rfl
  | succ n ih =>
    simp only [EllipticCurve.refMul, Option.bind_eq_bind]
    rw [ih, Option.some_bind]
    by_cases hacc : fromW (n • T) = fromW T
    · rw [if_pos hacc]
      have hnT : n • T = T := fromW_inj hacc
      rw [double_fromW hodd hnt, succ_nsmul, hnT]
    · rw [if_neg hacc]
      have hneT : n • T ≠ T := fun hcon => hacc (congrArg fromW hcon)
      rw [add_fromW (n • T) T hneT, succ_nsmul]

end Bridge

/-- C5 counterexample: `(5, 1)` and `(5, 18)` both pass `is_on_curve` on the
toy curve (`18` is an unreduced representative of `1`), they are distinct, and
`add` completes without any contract failure — yet the result `(7, 16)` is
not on the curve. -/
theorem curve_membership_counterexample :
    toyEC.is_on_curve (.Coor 5 1) = some true ∧
    toyEC.is_on_curve (.Coor 5 18) = some true ∧
    toyEC.add (.Coor 5 1) (.Coor 5 18) = some (.Coor 7 16) ∧
    toyEC.is_on_curve (.Coor 7 16) = some false := by decide

/-- C5 (amended): over an odd prime modulus, on a curve with no `y = 0`
point (so the doubling slope is always defined, per the spec's own `y = 0`
caveat), and for on-curve operands with coordinates reduced into `[0, p)`,
every point produced by a successfully completing `add`, `double` or
`scalar_mul` is on the curve, and `Identity` is on the curve
unconditionally. -/
theorem curve_membership_invariant (E : EllipticCurve) (c d pt : Point)
    (k : Nat) (hp : E.p.Prime) (hodd : E.p ≠ 2) (hnt : noTwoTorsion E)
    (hc : E.is_on_curve c = some true) (hrc : c.reduced E)
    (hd : E.is_on_curve d = some true) (hrd : d.reduced E)
    (hpt : E.is_on_curve pt = some true) (hrpt : pt.reduced E) :
    E.is_on_curve .Identity = some true ∧
    (∀ r, E.add c d = some r → E.is_on_curve r = some true) ∧
    (∀ r, E.double pt = some r → E.is_on_curve r = some true) ∧
    (∀ r, E.scalar_mul pt k = some r → E.is_on_curve r = some true) := by
  haveI : Fact (Nat.Prime E.p) := ⟨hp⟩
  obtain ⟨T1, hT1⟩ := exists_fromW hodd hnt c hc hrc
  obtain ⟨T2, hT2⟩ := exists_fromW hodd hnt d hd hrd
  obtain ⟨T, hT⟩ := exists_fromW hodd hnt pt hpt hrpt
  subst hT1
  subst hT2
  subst hT
  refine ⟨rfl, ?_, ?_, ?_⟩
  · intro r hr
    rw [add_fromW_of_some hr]
    exact fromW_oncurve _
  · intro r hr
    rw [double_fromW hodd hnt] at hr
    rw [← Option.some_inj.mp hr]
    exact fromW_oncurve _
  · intro r hr
    by_cases hk : k = 0
    · subst hk
      rw [scalar_mul_zero] at hr
      rw [← Option.some_inj.mp hr]
      rfl
    · rw [scalar_mul_fromW hodd hnt T k (by omega) r hr]
      exact fromW_oncurve _

/-- Witness for C5 (amended) on the toy curve: `(6,3)+(5,1) = (10,6)`,
`double (5,1) = (6,3)` and `5·(5,1) = (9,16)` are all on the curve. -/
theorem curve_membership_invariant_witness :
    toyEC.is_on_curve .Identity = some true ∧
    toyEC.is_on_curve (.Coor 10 6) = some true ∧
    toyEC.is_on_curve (.Coor 6 3) = some true ∧
    toyEC.is_on_curve (.Coor 9 16) = some true := by
  have h := curve_membership_invariant toyEC (.Coor 6 3) (.Coor 5 1)
    (.Coor 5 1) 5 (show Nat.Prime 17 by norm_num) (by decide) (by decide)
    (by decide)
    (by decide) (by decide) (by decide) (by decide) (by decide)
  exact ⟨h.1, h.2.1 _ (by decide), h.2.2.1 _ (by decide),
    h.2.2.2 _ (by decide)⟩

/-- C8 counterexample: `(22, 1)` passes `is_on_curve` on the toy curve (an
unreduced representative of the generator `(5, 1)`), and `scalar_mul`
computes `4·(22,1) = (3,1)` through doublings alone, with every intermediate
operation defined — but adding the point to itself 4 times by repeated group
addition fails (the third addition hits the `x2 < p` assertion), so the two
computations do not agree. -/
theorem scalar_mul_repeated_add_counterexample :
    toyEC.is_on_curve (.Coor 22 1) = some true ∧
    toyEC.scalar_mul (.Coor 22 1) 4 = some (.Coor 3 1) ∧
    toyEC.refMul (.Coor 22 1) 4 = none := by decide

/-- C8 (amended): on a curve without 2-torsion over an odd prime field,
whenever the double-and-add `scalar_mul` completes on an on-curve point with
coordinates reduced into `[0, p)` and a positive scalar, its result agrees
with the spec's repeated-group-addition reference `refMul` (which uses
doubling for coinciding addends). -/
theorem scalar_mul_eq_repeated_add (E : EllipticCurve) (pt : Point) (k : Nat)
    (R : Point) (hp : E.p.Prime) (hodd : E.p ≠ 2) (hnt : noTwoTorsion E)
    (hon : E.is_on_curve pt = some true) (hred : pt.reduced E) (hk : 1 ≤ k)
    (hrun : E.scalar_mul pt k = some R) :
    E.refMul pt k = some R := by
  haveI : Fact (Nat.Prime E.p) := ⟨hp⟩
  obtain ⟨T, hT⟩ := exists_fromW hodd hnt pt hon hred
  subst hT
  rw [refMul_fromW hodd hnt T k,
    scalar_mul_fromW hodd hnt T k hk R hrun]

/-- Witness for C8: `5·(5,1) = (9,16)` on the toy curve, both by
double-and-add and by repeated addition. -/
theorem scalar_mul_eq_repeated_add_witness :
    toyEC.refMul (.Coor 5 1) 5 = some (.Coor 9 16) :=
  scalar_mul_eq_repeated_add toyEC (.Coor 5 1) 5 (.Coor 9 16)
    (show Nat.Prime 17 by norm_num) (by decide) (by decide) (by decide)
    (by decide) (by decide) (by decide)

end Ecdsa
